import Mathlib

/-!
Verification of the Hybrid Zoo v3 compression core (hybrid_zoo_v3.py).

Modelling conventions, chosen once for the whole development:

* Real sequences are lists of rationals.  The program computes in IEEE
  float64 and quantizes payloads to float32; every claim under study is
  stated "up to float32 rounding", so the embedding uses exact rational
  arithmetic and float conversion is the identity.  Float literals of the
  source (0.5, 1e-10, 0.6745) become the exact rationals they denote.
* Byte strings are lists of natural numbers below 256.
* numpy tobytes / frombuffer (the 4-bytes-per-float32 serialization) is
  modelled by an injective, self-delimiting byte encoding of rationals
  (ASCII numerator, slash, denominator, semicolon); the claims never
  depend on the 4-byte width, only on encode/decode being inverse.
* The general-purpose compressor backend (gzip or zstandard, an external
  collaborator with a lossless contract) is modelled by a self-framing
  container: an ASCII decimal length, a zero separator byte, then the
  payload.  Decompression checks the frame and fails on corrupt input,
  mirroring the fact that the real backends raise on corrupt streams.
* json.dumps of the two-stream header dict is modelled byte-for-byte
  (ASCII, the exact key order and punctuation the source produces), and
  json.loads by a reader of that record shape returning Option.
* Exceptions raised by the decode path are modelled with Except: a header
  that fails to parse is a FormatError, a backend decompression failure
  is a BackendError.
-/

namespace HybridZoo

/-- Byte strings: lists of naturals below 256. -/
abbrev Bytes := List Nat

/-- Model of int.to_bytes(4, little): four little-endian base-256 digits. -/
def le4 (n : Nat) : Bytes :=
  [n % 256, n / 256 % 256, n / 256 ^ 2 % 256, n / 256 ^ 3 % 256]

/-- Model of int.from_bytes(b[:4], little); a short buffer is read as-is,
as Python does on a short slice. -/
def readLE4 (b : Bytes) : Nat :=
  (b.take 4).foldr (fun d a => d + 256 * a) 0

/-- Fuel-driven digit extraction; the fuel argument only forces structural
recursion, any fuel above the value gives the digits. -/
def natDecimalGo : Nat → Nat → Bytes
  | 0, _ => []
  | f + 1, n =>
    if n < 10 then [48 + n]
    else natDecimalGo f (n / 10) ++ [48 + n % 10]

/-- ASCII decimal digits of a natural number, most significant first. -/
def natDecimal (n : Nat) : Bytes :=
  natDecimalGo (n + 1) n

/-- Numeric value of a run of ASCII decimal digits. -/
def decVal (l : Bytes) : Nat :=
  l.foldl (fun a d => a * 10 + (d - 48)) 0

/-- Recognizer for ASCII decimal digits. -/
def isDigitB (b : Nat) : Bool :=
  decide (48 ≤ b ∧ b ≤ 57)

/-- Body of the modelled scalar serialization: optional minus sign, decimal
numerator magnitude, slash, decimal denominator. -/
def encBody (q : ℚ) : Bytes :=
  (if q.num < 0 then [45] else []) ++ natDecimal q.num.natAbs ++ [47] ++ natDecimal q.den

/-- One serialized scalar: the body followed by a semicolon terminator.
This stands in for the 4 little-endian bytes of one float32. -/
def encScalar (q : ℚ) : Bytes :=
  encBody q ++ [59]

/-- Model of arr.astype(float32).tobytes(): concatenation of the per-element
serializations (float32 rounding is the identity in this exact model). -/
def f32bytes (xs : List ℚ) : Bytes :=
  (xs.map encScalar).flatten

/-- Split a buffer at semicolon terminators, one chunk per scalar. -/
def splitSemi : Bytes → List Bytes
  | [] => []
  | b :: rest =>
    if b = 59 then [] :: splitSemi rest
    else
      match splitSemi rest with
      | [] => [[b]]
      | g :: gs => (b :: g) :: gs

/-- Read back one unsigned scalar body: digits, slash, digits. -/
def parsePos (l : Bytes) : ℚ :=
  (decVal (l.takeWhile (fun b => b != 47)) : ℚ) /
    (decVal ((l.dropWhile (fun b => b != 47)).drop 1) : ℚ)

/-- Read back one scalar body, honouring a leading minus sign. -/
def parseScalar (l : Bytes) : ℚ :=
  if l.head? = some 45 then -parsePos l.tail else parsePos l

/-- Model of np.frombuffer(b, float32): recover the list of scalars. -/
def frombuffer (b : Bytes) : List ℚ :=
  (splitSemi b).map parseScalar

/-- Model of the lossless backend compressor (gzip / zstandard, an external
collaborator): a self-framing container, ASCII decimal payload length, a
zero separator byte, then the payload verbatim. -/
def backendCompress (b : Bytes) : Bytes :=
  natDecimal b.length ++ 0 :: b

/-- Model of backend decompression: checks the frame, fails on a corrupt or
truncated stream exactly where the real backends raise. -/
def backendDecompress (b : Bytes) : Option Bytes :=
  let ds := b.takeWhile isDigitB
  match b.dropWhile isDigitB with
  | 0 :: payload => if ds ≠ [] ∧ decVal ds = payload.length then some payload else none
  | _ => none

/-- ASCII of the literal text before the mid value in the JSON header. -/
def litMid : Bytes := [123, 34, 109, 105, 100, 34, 58, 32]

/-- ASCII of the literal text between the mid and orig_len values. -/
def litOrig : Bytes := [44, 32, 34, 111, 114, 105, 103, 95, 108, 101, 110, 34, 58, 32]

/-- ASCII of the literal text between the orig_len and left_c_len values. -/
def litLeft : Bytes := [44, 32, 34, 108, 101, 102, 116, 95, 99, 95, 108, 101, 110, 34, 58, 32]

/-- Model of json.dumps on the header dict of MiniRP2.compress: the exact
ASCII bytes, keys in source order with the standard separators. -/
def headerBytes (mid origLen leftCLen : Nat) : Bytes :=
  litMid ++ natDecimal mid ++ litOrig ++ natDecimal origLen ++
    litLeft ++ natDecimal leftCLen ++ [125]

/-- The parsed header record of a Symmetric block. -/
structure SymHeader where
  mid : Nat
  orig_len : Nat
  left_c_len : Nat
deriving DecidableEq

/-- Consume an expected literal byte run, returning the remainder. -/
def expectLit (lit l : Bytes) : Option Bytes :=
  if lit.isPrefixOf l then some (l.drop lit.length) else none

/-- Consume a nonempty run of ASCII digits, returning value and remainder. -/
def parseNatDec (l : Bytes) : Option (Nat × Bytes) :=
  let ds := l.takeWhile isDigitB
  if ds = [] then none else some (decVal ds, l.dropWhile isDigitB)

/-- Model of json.loads on the header record: accepts the record shape the
encoder produces and fails on anything else (malformed header). -/
def parseHeader (l : Bytes) : Option SymHeader := do
  let r1 ← expectLit litMid l
  let (m, r2) ← parseNatDec r1
  let r3 ← expectLit litOrig r2
  let (n, r4) ← parseNatDec r3
  let r5 ← expectLit litLeft r4
  let (k, r6) ← parseNatDec r5
  let r7 ← expectLit [125] r6
  if r7 = [] then some ⟨m, n, k⟩ else none

/-- Model of np.var: population variance, mean of squared deviations. -/
def varQ (l : List ℚ) : ℚ :=
  let μ := l.sum / (l.length : ℚ)
  ((l.map fun x => (x - μ) ^ 2).sum) / (l.length : ℚ)

/-- MiniRP2._estimate_gain, line for line: sentinel -1 below 512 samples,
sentinel on a comparison-slice length mismatch, sentinel when the delta
variance does not beat the data variance, otherwise the gain formula. -/
def estimateGain (data : List ℚ) : ℚ :=
  let n := data.length
  if n < 512 then -1
  else
    let mid := n / 2
    let left := data.take mid
    let right_f := (((data.drop mid).take left.length).reverse).map (fun x => -x)
    if left.length ≠ right_f.length then -1
    else
      let delta := List.zipWith (fun a b => a - b) left right_f
      let delta_var := varQ delta
      let data_var := varQ data
      if delta_var ≥ data_var then -1
      else
        let ratio := delta_var / (data_var + 1 / 10 ^ 10)
        (n : ℚ) * 32 * (1 - ratio) * (1 / 2) - 2000

/-- MiniRP2._estimate_gain with the comparison-slice length test removed;
used to state that the removed branch is unreachable. -/
def estimateGainNoCheck (data : List ℚ) : ℚ :=
  let n := data.length
  if n < 512 then -1
  else
    let mid := n / 2
    let left := data.take mid
    let right_f := (((data.drop mid).take left.length).reverse).map (fun x => -x)
    let delta := List.zipWith (fun a b => a - b) left right_f
    let delta_var := varQ delta
    let data_var := varQ data
    if delta_var ≥ data_var then -1
    else
      let ratio := delta_var / (data_var + 1 / 10 ^ 10)
      (n : ℚ) * 32 * (1 - ratio) * (1 / 2) - 2000

/-- The delta the specification describes: left half minus the negated
reverse of the matching right slice. -/
def deltaSpec (data : List ℚ) : List ℚ :=
  List.zipWith (fun a b => a - b) (data.take (data.length / 2))
    ((((data.drop (data.length / 2)).take (data.length / 2)).reverse).map (fun x => -x))

/-- MiniRP2.compress: direct branch when the gain is negative, otherwise the
two-stream symmetric encoding with the length-prefixed JSON header.  The
second component is the seam (None for a direct block, mid otherwise). -/
def compress (data : List ℚ) : Bytes × Option Nat :=
  if estimateGain data < 0 then
    (backendCompress (f32bytes data), none)
  else
    let mid := data.length / 2
    let left := data.take mid
    let right := data.drop mid
    let flipped := (right.reverse).map (fun x => -x)
    let maxLen := max left.length flipped.length
    let left_p := left ++ List.replicate (maxLen - left.length) (0 : ℚ)
    let flipped_p := flipped ++ List.replicate (maxLen - flipped.length) (0 : ℚ)
    let delta := List.zipWith (fun a b => a - b) left_p flipped_p
    let c_left := backendCompress (f32bytes left_p)
    let c_delta := backendCompress (f32bytes delta)
    let h_bytes := headerBytes mid data.length c_left.length
    (le4 h_bytes.length ++ h_bytes ++ c_left ++ c_delta, some mid)

/-- The split point of the symmetric branch of MiniRP2.compress. -/
def midOf (data : List ℚ) : Nat :=
  data.length / 2

/-- The left half padded with trailing zeros to the common length, as built
by MiniRP2.compress lines 63 to 68. -/
def leftPadded (data : List ℚ) : List ℚ :=
  let left := data.take (midOf data)
  let flipped := ((data.drop (midOf data)).reverse).map (fun x => -x)
  left ++ List.replicate (max left.length flipped.length - left.length) 0

/-- The negated reversed right half padded with trailing zeros to the
common length, as built by MiniRP2.compress lines 65 to 69. -/
def flippedPadded (data : List ℚ) : List ℚ :=
  let left := data.take (midOf data)
  let flipped := ((data.drop (midOf data)).reverse).map (fun x => -x)
  flipped ++ List.replicate (max left.length flipped.length - flipped.length) 0

/-- The residual stream of the symmetric branch, line 70. -/
def deltaStream (data : List ℚ) : List ℚ :=
  List.zipWith (fun a b => a - b) (leftPadded data) (flippedPadded data)

/-- The compressed left stream of a Symmetric block, lines 72 to 79. -/
def cLeftOf (data : List ℚ) : Bytes :=
  backendCompress (f32bytes (leftPadded data))

/-- The compressed delta stream of a Symmetric block, lines 73 to 80. -/
def cDeltaOf (data : List ℚ) : Bytes :=
  backendCompress (f32bytes (deltaStream data))

/-- The serialized header of a Symmetric block, lines 82 to 87. -/
def hBytesOf (data : List ℚ) : Bytes :=
  headerBytes (midOf data) data.length (cLeftOf data).length

/-- A concrete 512-sample sequence whose second half is the negated
reverse of the first, used to exercise the symmetric path. -/
def seqWitness : List ℚ :=
  List.replicate 256 1 ++ List.replicate 256 (-1)

/-- The slicing stage of MiniRP2.decompress, lines 92 to 97: read the 4-byte
little-endian header length, parse the header, and cut the two compressed
streams out of the buffer using left_c_len and the remainder. -/
def decodeSlices (compressed : Bytes) : Option (SymHeader × Bytes × Bytes) := do
  let hLen := readLE4 (compressed.take 4)
  let hdr ← parseHeader ((compressed.drop 4).take hLen)
  let leftStart := 4 + hLen
  let cLeft := (compressed.drop leftStart).take hdr.left_c_len
  let cDelta := compressed.drop (leftStart + hdr.left_c_len)
  some (hdr, cLeft, cDelta)

/-- Decode errors of a Symmetric block: a header that does not parse, or a
backend stream that does not decompress. -/
inductive RP2Error
  | formatError
  | backendError
deriving DecidableEq

/-- MiniRP2.decompress: slice the frame, decompress both streams, rebuild
flipped_p = left_p - delta, recover the right half by negation and reversal
truncated to orig_len - mid, the left half truncated to mid. -/
def decompress (compressed : Bytes) : Except RP2Error (List ℚ) :=
  match decodeSlices compressed with
  | none => .error .formatError
  | some (hdr, cLeft, cDelta) =>
    match backendDecompress cLeft, backendDecompress cDelta with
    | some leftB, some deltaB =>
      let left_p := frombuffer leftB
      let delta := frombuffer deltaB
      let flipped_p := List.zipWith (fun a b => a - b) left_p delta
      let right := ((flipped_p.reverse).take (hdr.orig_len - hdr.mid)).map (fun x => -x)
      let left := left_p.take hdr.mid
      .ok (left ++ right)
    | _, _ => .error .backendError

/-- Decoding of a Direct block (hybrid_decompress, line 192): backend
decompression of the raw float32 bytes, reinterpreted as a sequence. -/
def decodeDirect (b : Bytes) : Option (List ℚ) :=
  (backendDecompress b).map frombuffer

/-- Absolute value, written out so that it evaluates on rationals. -/
def absQ (x : ℚ) : ℚ :=
  if x < 0 then -x else x

/-- Binary maximum, written out so that it evaluates on rationals. -/
def maxQ (a b : ℚ) : ℚ :=
  if a < b then b else a

/-- Model of np.median: midpoint of the sorted list, averaging the two
middle elements on even length. -/
def medianQ (l : List ℚ) : ℚ :=
  let s := List.insertionSort (fun a b : ℚ => a ≤ b) l
  if l.length = 0 then 0
  else if l.length % 2 = 1 then s.getD (l.length / 2) 0
  else (s.getD (l.length / 2 - 1) 0 + s.getD (l.length / 2) 0) / 2

/-- Soft shrink of one value at threshold t: sign(x) * max(abs(x) - t, 0). -/
def softShrink (x t : ℚ) : ℚ :=
  (if x < 0 then -1 else if x = 0 then 0 else 1) * maxQ (absQ x - t) 0

/-- The threshold hybrid_compress computes for one detail array, line 145:
factor times the median absolute value over 0.6745. -/
def threshOf (d : List ℚ) (f : ℚ) : ℚ :=
  f * medianQ (d.map absQ) / (6745 / 10000)

/-- DetailThresholder.threshold, lines 145 to 146: soft shrink every element
at the MAD-derived threshold recomputed from the input array. -/
def threshold (d : List ℚ) (f : ℚ) : List ℚ :=
  d.map (fun x => softShrink x (threshOf d f))

/-- One step of the FamilySelector loop, lines 160 to 165: a failed
candidate (none) is skipped, a successful one replaces the best seen so far
exactly when its packed byte size is strictly smaller. -/
def selectStep (best : Option (Nat × Bytes)) (ic : Nat × Option Bytes) :
    Option (Nat × Bytes) :=
  match ic.2 with
  | none => best
  | some b =>
    match best with
    | none => some (ic.1, b)
    | some (j, bb) => if b.length < bb.length then some (ic.1, b) else some (j, bb)

/-- The FamilySelector loop over the remaining candidates, carrying the
index of the next candidate and the best seen so far. -/
def selectGo (best : Option (Nat × Bytes)) (i : Nat) :
    List (Option Bytes) → Option (Nat × Bytes)
  | [] => best
  | c :: rest => selectGo (selectStep best (i, c)) (i + 1) rest

/-- FamilySelector.selectBest over the packed-and-outer-compressed outcome
of each candidate basis (none marks a candidate whose transform failed):
index and bytes of the winner. -/
def selectBest (cands : List (Option Bytes)) : Option (Nat × Bytes) :=
  selectGo none 0 cands

/-- The fatal outcome when every candidate fails, line 172. -/
inductive SelectError
  | noViableBasis
deriving DecidableEq

/-- hybrid_compress result handling, lines 171 to 172: raise when no
wavelet family succeeded, otherwise return the winner. -/
def selectOrFail (cands : List (Option Bytes)) :
    Except SelectError (Nat × Bytes) :=
  match selectBest cands with
  | some r => .ok r
  | none => .error .noViableBasis

/-- Lowercase hexadecimal digit. -/
def hexDigit (n : Nat) : Nat :=
  if n < 10 then 48 + n else 87 + n

/-- One byte of the Python repr of a bytes object under quote character q:
backslash and the quote are escaped, tab, newline and carriage return use
their short escapes, other printable ASCII passes through, the rest become
backslash-x and two lowercase hex digits. -/
def reprByte (q b : Nat) : Bytes :=
  if b = 92 then [92, 92]
  else if b = q then [92, q]
  else if b = 9 then [92, 116]
  else if b = 10 then [92, 110]
  else if b = 13 then [92, 114]
  else if 32 ≤ b ∧ b < 127 then [b]
  else [92, 120, hexDigit (b / 16), hexDigit (b % 16)]

/-- Model of str(o) on a bytes object (the json.dumps default fallback in
hybrid_compress, line 157): the Python repr, single-quoted unless the data
contains a single quote and no double quote. -/
def pyBytesRepr (bs : Bytes) : Bytes :=
  if 39 ∈ bs ∧ ¬ 34 ∈ bs then [98, 34] ++ (bs.map (reprByte 34)).flatten ++ [34]
  else [98, 39] ++ (bs.map (reprByte 39)).flatten ++ [39]

/-- One character of a JSON string literal as json.dumps emits it. -/
def jsonEscByte (b : Nat) : Bytes :=
  if b = 34 then [92, 34]
  else if b = 92 then [92, 92]
  else if b = 8 then [92, 98]
  else if b = 9 then [92, 116]
  else if b = 10 then [92, 110]
  else if b = 12 then [92, 102]
  else if b = 13 then [92, 114]
  else if b < 32 then [92, 117, 48, 48, hexDigit (b / 16), hexDigit (b % 16)]
  else [b]

/-- A JSON string literal as json.dumps emits it for an ASCII string. -/
def jsonStringEnc (s : Bytes) : Bytes :=
  [34] ++ (s.map jsonEscByte).flatten ++ [34]

/-- Hexadecimal digit recognizer (digits and lowercase letters). -/
def isHexB (b : Nat) : Bool :=
  decide ((48 ≤ b ∧ b ≤ 57) ∨ (97 ≤ b ∧ b ≤ 102))

/-- Value of one hexadecimal digit. -/
def hexVal (b : Nat) : Nat :=
  if b ≤ 57 then b - 48 else b - 87

/-- Body of a JSON string literal after the opening quote: undo the escapes
json.dumps produces, up to the closing quote which must end the input. -/
def jsonStrBody : Bytes → Option Bytes
  | [] => none
  | 34 :: rest => if rest = [] then some [] else none
  | 92 :: 34 :: r => (jsonStrBody r).map (fun t => 34 :: t)
  | 92 :: 92 :: r => (jsonStrBody r).map (fun t => 92 :: t)
  | 92 :: 98 :: r => (jsonStrBody r).map (fun t => 8 :: t)
  | 92 :: 116 :: r => (jsonStrBody r).map (fun t => 9 :: t)
  | 92 :: 110 :: r => (jsonStrBody r).map (fun t => 10 :: t)
  | 92 :: 102 :: r => (jsonStrBody r).map (fun t => 12 :: t)
  | 92 :: 114 :: r => (jsonStrBody r).map (fun t => 13 :: t)
  | 92 :: 117 :: 48 :: 48 :: h3 :: h4 :: r =>
    if isHexB h3 ∧ isHexB h4 then
      (jsonStrBody r).map (fun t => (hexVal h3 * 16 + hexVal h4) :: t)
    else none
  | 92 :: _ => none
  | b :: rest => (jsonStrBody rest).map (fun t => b :: t)

/-- Model of json.loads on one string literal. -/
def jsonStringDec (l : Bytes) : Option Bytes :=
  match l with
  | 34 :: rest => jsonStrBody rest
  | _ => none

/-- What hybrid_compress, line 157, writes into the artifact for one detail
buffer: json.dumps falls back to str(o) on the bytes object, so the stored
value is the JSON string literal of the Python repr text. -/
def serializeDetail (d : Bytes) : Bytes :=
  jsonStringEnc (pyBytesRepr d)

/-- What hybrid_decompress, line 194, recovers for one detail buffer: the
JSON-parsed string re-encoded latin-1, which maps each code point to the
equal byte (all repr output is below 256, so latin-1 is the identity on
the code point list). -/
def deserializeDetail (w : Bytes) : Option Bytes :=
  jsonStringDec w

/-! Infrastructure lemmas. -/

theorem natDecimalGo_congr (f₁ : Nat) : ∀ f₂ n, n < f₁ → n < f₂ →
    natDecimalGo f₁ n = natDecimalGo f₂ n := by
  induction f₁ with
  | zero => intro f₂ n h₁; omega
  | succ f ih =>
    intro f₂ n h₁ h₂
    cases f₂ with
    | zero => omega
    | succ g =>
      rw [natDecimalGo, natDecimalGo]
      split
      · rfl
      · rw [ih g (n / 10) (by omega) (by omega)]

theorem natDecimal_eq (n : Nat) :
    natDecimal n = if n < 10 then [48 + n] else natDecimal (n / 10) ++ [48 + n % 10] := by
  rw [natDecimal, natDecimalGo]
  split
  · rfl
  · rw [natDecimalGo_congr n (n / 10 + 1) (n / 10) (by omega) (by omega)]
    rfl

theorem take_four_of_length_four (l r : Bytes) (h : l.length = 4) :
    (l ++ r).take 4 = l := by
  rw [← h, List.take_left]

theorem length_le4 (n : Nat) : (le4 n).length = 4 := by
  simp [le4]

theorem readLE4_le4_append (n : Nat) (h : n < 2 ^ 32) (rest : Bytes) :
    readLE4 (le4 n ++ rest) = n := by
  rw [readLE4, take_four_of_length_four _ _ (length_le4 n)]
  show n % 256 + 256 * (n / 256 % 256 + 256 * (n / 256 ^ 2 % 256 + 256 * (n / 256 ^ 3 % 256 + 256 * 0))) = n
  have h2 : (256 : Nat) ^ 2 = 65536 := by norm_num
  have h3 : (256 : Nat) ^ 3 = 16777216 := by norm_num
  have h32 : (2 : Nat) ^ 32 = 4294967296 := by norm_num
  rw [h2, h3]
  omega

theorem natDecimal_ne_nil (n : Nat) : natDecimal n ≠ [] := by
  rw [natDecimal_eq]
  split <;> simp

theorem natDecimal_digits (n : Nat) : ∀ d ∈ natDecimal n, 48 ≤ d ∧ d ≤ 57 := by
  induction n using Nat.strong_induction_on with
  | _ n ih =>
    rw [natDecimal_eq]
    split
    · intro d hd
      simp only [List.mem_singleton] at hd
      omega
    · intro d hd
      rcases List.mem_append.1 hd with h | h
      · exact ih (n / 10) (Nat.div_lt_self (by omega) (by omega)) d h
      · simp only [List.mem_singleton] at h
        have := Nat.mod_lt n (y := 10) (by omega)
        omega

theorem decVal_append_digit (l : Bytes) (d : Nat) :
    decVal (l ++ [d]) = decVal l * 10 + (d - 48) := by
  simp [decVal, List.foldl_append]

theorem decVal_natDecimal (n : Nat) : decVal (natDecimal n) = n := by
  induction n using Nat.strong_induction_on with
  | _ n ih =>
    rw [natDecimal_eq]
    split
    · simp [decVal]
    · rw [decVal_append_digit, ih (n / 10) (Nat.div_lt_self (by omega) (by omega))]
      omega

theorem takeWhile_append_stop (p : Nat → Bool) (l₁ : Bytes) (x : Nat) (l₂ : Bytes)
    (h₁ : ∀ b ∈ l₁, p b = true) (hx : p x = false) :
    (l₁ ++ x :: l₂).takeWhile p = l₁ ∧ (l₁ ++ x :: l₂).dropWhile p = x :: l₂ := by
  induction l₁ with
  | nil => simp [List.takeWhile_cons, List.dropWhile_cons, hx]
  | cons a as ih =>
    have ha : p a = true := h₁ a (List.mem_cons_self a as)
    have ih' := ih (fun b hb => h₁ b (List.mem_cons_of_mem a hb))
    simp [List.takeWhile_cons, List.dropWhile_cons, ha, ih'.1, ih'.2]

theorem isPrefixOf_append (l₁ l₂ : Bytes) : l₁.isPrefixOf (l₁ ++ l₂) = true := by
  rw [List.isPrefixOf_iff_prefix]
  exact List.prefix_append l₁ l₂

theorem expectLit_append (lit rest : Bytes) : expectLit lit (lit ++ rest) = some rest := by
  simp [expectLit, isPrefixOf_append, List.drop_left]

theorem expectLit_self (lit : Bytes) : expectLit lit lit = some [] := by
  have := expectLit_append lit []
  simpa using this

theorem parseNatDec_natDecimal (m c : Nat) (rest : Bytes) (hc : isDigitB c = false) :
    parseNatDec (natDecimal m ++ c :: rest) = some (m, c :: rest) := by
  have hall : ∀ b ∈ natDecimal m, isDigitB b = true := by
    intro b hb
    have := natDecimal_digits m b hb
    simp [isDigitB]
    omega
  have h := takeWhile_append_stop isDigitB (natDecimal m) c rest hall hc
  simp [parseNatDec, h.1, h.2, natDecimal_ne_nil, decVal_natDecimal]

theorem parseNatDec_natDecimal_lit (m : Nat) (c : Nat) (tail R : Bytes)
    (hc : isDigitB c = false) :
    parseNatDec (natDecimal m ++ ((c :: tail) ++ R)) = some (m, (c :: tail) ++ R) := by
  rw [List.cons_append]
  exact parseNatDec_natDecimal m c (tail ++ R) hc

theorem parseHeader_headerBytes (m n k : Nat) :
    parseHeader (headerBytes m n k) = some ⟨m, n, k⟩ := by
  have pm : parseNatDec (natDecimal m ++
      (litOrig ++ (natDecimal n ++ (litLeft ++ (natDecimal k ++ [125]))))) =
      some (m, litOrig ++ (natDecimal n ++ (litLeft ++ (natDecimal k ++ [125])))) :=
    parseNatDec_natDecimal_lit m 44 _ _ (by decide)
  have pn : parseNatDec (natDecimal n ++ (litLeft ++ (natDecimal k ++ [125]))) =
      some (n, litLeft ++ (natDecimal k ++ [125])) :=
    parseNatDec_natDecimal_lit n 44 _ _ (by decide)
  have pk : parseNatDec (natDecimal k ++ [125]) = some (k, [125]) :=
    parseNatDec_natDecimal k 125 [] (by decide)
  simp only [headerBytes, List.append_assoc]
  simp [parseHeader, expectLit_append, expectLit_self, pm, pn, pk]

theorem splitSemi_append (c : Bytes) (hc : ∀ b ∈ c, b ≠ 59) (rest : Bytes) :
    splitSemi (c ++ 59 :: rest) = c :: splitSemi rest := by
  induction c with
  | nil => simp [splitSemi]
  | cons b bs ih =>
    have hb : b ≠ 59 := hc b (List.mem_cons_self b bs)
    have ih' := ih (fun x hx => hc x (List.mem_cons_of_mem b hx))
    rw [List.cons_append, splitSemi]
    simp only [hb, if_false, ih']

theorem encBody_ne_semi (q : ℚ) : ∀ b ∈ encBody q, b ≠ 59 := by
  intro b hb
  simp only [encBody, List.mem_append] at hb
  rcases hb with ((h | h) | h) | h
  · split at h <;> simp_all
  · have := natDecimal_digits _ b h; omega
  · simp only [List.mem_singleton] at h; omega
  · have := natDecimal_digits _ b h; omega

theorem parsePos_enc (a b : Nat) :
    parsePos (natDecimal a ++ 47 :: natDecimal b) = (a : ℚ) / (b : ℚ) := by
  have hall : ∀ d ∈ natDecimal a, (d != 47) = true := by
    intro d hd
    have := natDecimal_digits a d hd
    simp
    omega
  have h := takeWhile_append_stop (fun d => d != 47) (natDecimal a) 47 (natDecimal b) hall
    (by decide)
  simp [parsePos, h.1, h.2, decVal_natDecimal]

theorem natDecimal_head (n : Nat) :
    ∃ d t, natDecimal n = d :: t ∧ 48 ≤ d ∧ d ≤ 57 := by
  cases h : natDecimal n with
  | nil => exact absurd h (natDecimal_ne_nil n)
  | cons d t =>
    have hd := natDecimal_digits n d (h ▸ List.mem_cons_self d t)
    exact ⟨d, t, rfl, hd.1, hd.2⟩

theorem parseScalar_encBody (q : ℚ) : parseScalar (encBody q) = q := by
  by_cases hq : q.num < 0
  · have hbody : encBody q = 45 :: (natDecimal q.num.natAbs ++ 47 :: natDecimal q.den) := by
      simp [encBody, hq]
    rw [hbody]
    have hps : parseScalar (45 :: (natDecimal q.num.natAbs ++ 47 :: natDecimal q.den)) =
        -parsePos (natDecimal q.num.natAbs ++ 47 :: natDecimal q.den) := by
      simp [parseScalar]
    rw [hps, parsePos_enc]
    have hnum : ((q.num.natAbs : Nat) : ℚ) = -(q.num : ℚ) := by
      rw [Int.cast_natAbs, abs_of_neg hq]
      push_cast
      ring
    rw [hnum, neg_div, neg_neg, Rat.num_div_den]
  · have hbody : encBody q = natDecimal q.num.natAbs ++ 47 :: natDecimal q.den := by
      simp [encBody, hq]
    obtain ⟨d, t, hd, hd48, hd57⟩ := natDecimal_head q.num.natAbs
    rw [hbody, hd]
    have hd45 : d ≠ 45 := by omega
    have hps : parseScalar (d :: (t ++ 47 :: natDecimal q.den)) =
        parsePos (d :: (t ++ 47 :: natDecimal q.den)) := by
      simp [parseScalar, hd45]
    rw [List.cons_append, hps, ← List.cons_append, ← hd, parsePos_enc]
    have hnum : ((q.num.natAbs : Nat) : ℚ) = (q.num : ℚ) := by
      rw [Int.cast_natAbs, abs_of_nonneg (by omega : (0 : ℤ) ≤ q.num)]
    rw [hnum, Rat.num_div_den]

theorem frombuffer_f32bytes (xs : List ℚ) : frombuffer (f32bytes xs) = xs := by
  induction xs with
  | nil => rfl
  | cons x xs ih =>
    have : f32bytes (x :: xs) = encBody x ++ 59 :: f32bytes xs := by
      simp [f32bytes, encScalar, List.append_assoc]
    rw [frombuffer, this, splitSemi_append _ (encBody_ne_semi x)]
    simp only [List.map_cons, parseScalar_encBody]
    rw [← frombuffer, ih]

theorem comparison_slice_lengths (data : List ℚ) :
    (data.take (data.length / 2)).length =
      ((((data.drop (data.length / 2)).take
        ((data.take (data.length / 2)).length)).reverse).map (fun x => -x)).length := by
  simp only [List.length_map, List.length_reverse, List.length_take, List.length_drop]
  omega

theorem estimateGain_ifForm (data : List ℚ) :
    estimateGain data =
      if data.length < 512 then -1
      else if varQ (deltaSpec data) ≥ varQ data then -1
      else (data.length : ℚ) * 32 *
        (1 - varQ (deltaSpec data) / (varQ data + 1 / 10 ^ 10)) * (1 / 2) - 2000 := by
  by_cases h : data.length < 512
  · simp [estimateGain, h]
  · have htl : (data.take (data.length / 2)).length = data.length / 2 := by
      simp only [List.length_take]
      omega
    have hlen2 : (List.map (fun x => -x)
        (List.take (data.length / 2) (List.drop (data.length / 2) data)).reverse).length =
        data.length / 2 := by
      simp only [List.length_map, List.length_reverse, List.length_take, List.length_drop]
      omega
    simp [estimateGain, deltaSpec, if_neg h, htl, hlen2]
    exact fun h2 => absurd h2 (by omega)

theorem estimateGain_eq_noCheck (data : List ℚ) :
    estimateGain data = estimateGainNoCheck data := by
  by_cases h : data.length < 512
  · simp [estimateGain, estimateGainNoCheck, h]
  · have htl : (data.take (data.length / 2)).length = data.length / 2 := by
      simp only [List.length_take]
      omega
    have hlen2 : (List.map (fun x => -x)
        (List.take (data.length / 2) (List.drop (data.length / 2) data)).reverse).length =
        data.length / 2 := by
      simp only [List.length_map, List.length_reverse, List.length_take, List.length_drop]
      omega
    simp [estimateGain, estimateGainNoCheck, if_neg h, htl, hlen2]
    exact fun h2 => absurd h2 (by omega)

theorem estimateGain_sentinel (data : List ℚ)
    (h : data.length < 512 ∨ varQ (deltaSpec data) ≥ varQ data) :
    estimateGain data = -1 := by
  rw [estimateGain_ifForm]
  rcases h with h | h
  · rw [if_pos h]
  · by_cases h1 : data.length < 512
    · rw [if_pos h1]
    · rw [if_neg h1, if_pos h]

theorem backend_roundtrip (b : Bytes) :
    backendDecompress (backendCompress b) = some b := by
  have hall : ∀ d ∈ natDecimal b.length, isDigitB d = true := by
    intro d hd
    have := natDecimal_digits _ d hd
    simp [isDigitB]
    omega
  have h := takeWhile_append_stop isDigitB (natDecimal b.length) 0 b hall (by decide)
  simp [backendDecompress, backendCompress, h.1, h.2, natDecimal_ne_nil, decVal_natDecimal]

theorem readLE4_le4 (n : Nat) (h : n < 2 ^ 32) : readLE4 (le4 n) = n := by
  have := readLE4_le4_append n h []
  simpa using this

theorem compress_sym_eq (data : List ℚ) (h : ¬ estimateGain data < 0) :
    compress data =
      (le4 (hBytesOf data).length ++ hBytesOf data ++ cLeftOf data ++ cDeltaOf data,
        some (midOf data)) := by
  rw [compress, if_neg h]
  simp only [hBytesOf, cLeftOf, cDeltaOf, deltaStream, leftPadded, flippedPadded, midOf]

theorem decodeSlices_frame (m n : Nat) (cL cD : Bytes)
    (hlen : (headerBytes m n cL.length).length < 2 ^ 32) :
    decodeSlices (le4 (headerBytes m n cL.length).length ++
        headerBytes m n cL.length ++ cL ++ cD) =
      some (⟨m, n, cL.length⟩, cL, cD) := by
  set H := headerBytes m n cL.length with hH
  have e0 : le4 H.length ++ H ++ cL ++ cD = le4 H.length ++ (H ++ (cL ++ cD)) := by
    simp [List.append_assoc]
  rw [e0]
  have e1 : (le4 H.length ++ (H ++ (cL ++ cD))).take 4 = le4 H.length :=
    take_four_of_length_four _ _ (length_le4 _)
  have e2 : (le4 H.length ++ (H ++ (cL ++ cD))).drop 4 = H ++ (cL ++ cD) :=
    List.drop_left' (length_le4 _)
  have e3 : (le4 H.length ++ (H ++ (cL ++ cD))).drop (4 + H.length) = cL ++ cD := by
    rw [← List.append_assoc]
    exact List.drop_left' (by simp [length_le4])
  have e4 : (le4 H.length ++ (H ++ (cL ++ cD))).drop (4 + H.length + cL.length) = cD := by
    rw [← List.append_assoc, ← List.append_assoc]
    refine List.drop_left' ?_
    simp [length_le4]
    omega
  simp [decodeSlices, e1, e2, e3, e4, readLE4_le4 _ hlen, List.take_left,
    parseHeader_headerBytes, hH]

theorem decompress_frame (m n : Nat) (lp dl : List ℚ)
    (hlen : (headerBytes m n (backendCompress (f32bytes lp)).length).length < 2 ^ 32) :
    decompress (le4 (headerBytes m n (backendCompress (f32bytes lp)).length).length ++
        headerBytes m n (backendCompress (f32bytes lp)).length ++
        backendCompress (f32bytes lp) ++ backendCompress (f32bytes dl)) =
      .ok (lp.take m ++
        (((List.zipWith (fun a b => a - b) lp dl).reverse).take (n - m)).map (fun x => -x)) := by
  have hs := decodeSlices_frame m n (backendCompress (f32bytes lp))
    (backendCompress (f32bytes dl)) hlen
  simp only [List.append_assoc] at hs
  simp [decompress, hs, backend_roundtrip, frombuffer_f32bytes]

theorem zipWith_sub_sub (a : List ℚ) : ∀ b : List ℚ, a.length = b.length →
    List.zipWith (fun x y => x - y) a (List.zipWith (fun x y => x - y) a b) = b := by
  induction a with
  | nil =>
    intro b hb
    cases b with
    | nil => rfl
    | cons y ys => simp at hb
  | cons x xs ih =>
    intro b hb
    cases b with
    | nil => simp at hb
    | cons y ys =>
      simp only [List.zipWith_cons_cons, sub_sub_cancel, List.cons.injEq, true_and]
      exact ih ys (by simpa using hb)

theorem zipWith_replicate_same (f : ℚ → ℚ → ℚ) (n : Nat) (a b : ℚ) :
    List.zipWith f (List.replicate n a) (List.replicate n b) = List.replicate n (f a b) := by
  induction n with
  | zero => rfl
  | succ m ih => simp [List.replicate_succ, ih]

theorem take_mid_length (data : List ℚ) :
    (data.take (midOf data)).length = midOf data := by
  simp only [List.length_take, midOf]
  omega

theorem flip_length (data : List ℚ) :
    (((data.drop (midOf data)).reverse).map (fun x => -x)).length =
      data.length - midOf data := by
  simp

theorem mid_le_rest (data : List ℚ) : midOf data ≤ data.length - midOf data := by
  rw [midOf]
  omega

theorem leftPadded_spec (data : List ℚ) :
    leftPadded data = data.take (midOf data) ++
      List.replicate (data.length - midOf data - midOf data) 0 := by
  simp only [leftPadded]
  rw [take_mid_length, flip_length, Nat.max_eq_right (mid_le_rest data)]

theorem flippedPadded_spec (data : List ℚ) :
    flippedPadded data = ((data.drop (midOf data)).reverse).map (fun x => -x) := by
  simp only [flippedPadded]
  rw [take_mid_length, flip_length, Nat.max_eq_right (mid_le_rest data),
    Nat.sub_self, List.replicate_zero, List.append_nil]

theorem leftPadded_length (data : List ℚ) :
    (leftPadded data).length = data.length - midOf data := by
  rw [leftPadded_spec]
  simp only [List.length_append, List.length_replicate, take_mid_length]
  have := mid_le_rest data
  omega

theorem flippedPadded_length (data : List ℚ) :
    (flippedPadded data).length = data.length - midOf data := by
  rw [flippedPadded_spec]
  simp

theorem hBytes_lt_of_size (data : List ℚ) (h : ¬ estimateGain data < 0)
    (hsize : (compress data).1.length < 2 ^ 32) :
    (hBytesOf data).length < 2 ^ 32 := by
  rw [compress_sym_eq data h] at hsize
  simp only [List.length_append, length_le4] at hsize
  omega

theorem roundtrip_core (data : List ℚ) (hgain : 0 ≤ estimateGain data)
    (hsize : (compress data).1.length < 2 ^ 32) :
    decompress (compress data).1 = .ok data := by
  have hneg : ¬ estimateGain data < 0 := not_lt.2 hgain
  have hHlen : (hBytesOf data).length < 2 ^ 32 := hBytes_lt_of_size data hneg hsize
  rw [compress_sym_eq data hneg]
  have hframe := decompress_frame (midOf data) data.length (leftPadded data)
    (deltaStream data) hHlen
  simp only [hBytesOf, cLeftOf, cDeltaOf]
  rw [hframe]
  have hsub : List.zipWith (fun a b => a - b) (leftPadded data) (deltaStream data) =
      flippedPadded data := by
    rw [deltaStream]
    exact zipWith_sub_sub _ _ (by rw [leftPadded_length, flippedPadded_length])
  rw [hsub, flippedPadded_spec]
  have hrev : ((((data.drop (midOf data)).reverse).map (fun x => -x))).reverse =
      (data.drop (midOf data)).map (fun x => -x) := by
    simp
  rw [hrev]
  have htake2 : List.take (data.length - midOf data)
      ((data.drop (midOf data)).map (fun x => -x)) =
      (data.drop (midOf data)).map (fun x => -x) :=
    List.take_of_length_le (by simp)
  rw [htake2]
  have hmapmap : List.map (fun x : ℚ => -x) ((data.drop (midOf data)).map (fun x => -x)) =
      data.drop (midOf data) := by
    simp
  rw [hmapmap]
  have htakelp : List.take (midOf data) (leftPadded data) = data.take (midOf data) := by
    rw [leftPadded_spec]
    exact List.take_left' (take_mid_length data)
  rw [htakelp, List.take_append_drop]

theorem selectStep_none (best : Option (Nat × Bytes)) (i : Nat) :
    selectStep best (i, none) = best := rfl

theorem selectStep_some_none (i : Nat) (b : Bytes) :
    selectStep none (i, some b) = some (i, b) := rfl

theorem selectStep_some_some (i j : Nat) (b bb : Bytes) :
    selectStep (some (j, bb)) (i, some b) =
      if b.length < bb.length then some (i, b) else some (j, bb) := rfl

theorem selectGo_spec (cands : List (Option Bytes)) :
    ∀ (i : Nat) (best : Option (Nat × Bytes)),
      (selectGo best i cands = none → best = none ∧ ∀ c ∈ cands, c = none) ∧
      (∀ k b, selectGo best i cands = some (k, b) →
        (∀ j c, cands.get? j = some (some c) → b.length ≤ c.length) ∧
        (best = some (k, b) ∨
          (i ≤ k ∧ cands.get? (k - i) = some (some b) ∧
            (∀ j c, j < k - i → cands.get? j = some (some c) → b.length < c.length) ∧
            (∀ kb bb, best = some (kb, bb) → b.length < bb.length)))) := by
  induction cands with
  | nil =>
    intro i best
    refine ⟨fun h => ⟨h, by simp⟩, fun k b h => ⟨by simp, Or.inl h⟩⟩
  | cons c rest ih =>
    intro i best
    have hstep : selectGo best i (c :: rest) = selectGo (selectStep best (i, c)) (i + 1) rest :=
      rfl
    constructor
    · intro h
      rw [hstep] at h
      obtain ⟨hb', hall⟩ := (ih (i + 1) (selectStep best (i, c))).1 h
      cases c with
      | none =>
        rw [selectStep_none] at hb'
        refine ⟨hb', ?_⟩
        intro x hx
        rcases List.mem_cons.1 hx with h1 | h1
        · rw [h1]
        · exact hall x h1
      | some b₀ =>
        exfalso
        have hne : ∃ p, selectStep best (i, some b₀) = some p := by
          cases best with
          | none => exact ⟨(i, b₀), rfl⟩
          | some p =>
            obtain ⟨j, bb⟩ := p
            by_cases hlt : b₀.length < bb.length
            · exact ⟨(i, b₀), by rw [selectStep_some_some, if_pos hlt]⟩
            · exact ⟨(j, bb), by rw [selectStep_some_some, if_neg hlt]⟩
        obtain ⟨p, hp⟩ := hne
        rw [hp] at hb'
        cases hb'
    · intro k b h
      rw [hstep] at h
      obtain ⟨hmin', hside⟩ := ((ih (i + 1) (selectStep best (i, c))).2 k b) h
      have hminc : ∀ j c', (c :: rest).get? j = some (some c') → b.length ≤ c'.length := by
        intro j c' hj
        cases j with
        | zero =>
          rw [List.get?_cons_zero] at hj
          injection hj with hj
          subst hj
          rcases hside with hkept | ⟨_, _, _, hbeat⟩
          · cases best with
            | none =>
              rw [selectStep_some_none] at hkept
              injection hkept with hkept
              have h2 : c' = b := congrArg Prod.snd hkept
              rw [← h2]
            | some p =>
              obtain ⟨j₀, bb⟩ := p
              rw [selectStep_some_some] at hkept
              by_cases hlt : c'.length < bb.length
              · rw [if_pos hlt] at hkept
                injection hkept with hkept
                have h2 : c' = b := congrArg Prod.snd hkept
                rw [← h2]
              · rw [if_neg hlt] at hkept
                injection hkept with hkept
                have h2 : bb = b := congrArg Prod.snd hkept
                rw [← h2]
                omega
          · cases best with
            | none =>
              have := hbeat i c' (by rw [selectStep_some_none])
              omega
            | some p =>
              obtain ⟨j₀, bb⟩ := p
              by_cases hlt : c'.length < bb.length
              · have := hbeat i c' (by rw [selectStep_some_some, if_pos hlt])
                omega
              · have := hbeat j₀ bb (by rw [selectStep_some_some, if_neg hlt])
                omega
        | succ j =>
          rw [List.get?_cons_succ] at hj
          exact hmin' j c' hj
      refine ⟨hminc, ?_⟩
      rcases hside with hkept | ⟨hik, hget, hstrict, hbeat⟩
      · cases c with
        | none =>
          rw [selectStep_none] at hkept
          exact Or.inl hkept
        | some b₀ =>
          cases best with
          | none =>
            rw [selectStep_some_none] at hkept
            injection hkept with hkept
            have hik' : i = k := congrArg Prod.fst hkept
            have hbb' : b₀ = b := congrArg Prod.snd hkept
            right
            refine ⟨by omega, ?_, ?_, ?_⟩
            · rw [← hik', Nat.sub_self, List.get?_cons_zero, hbb']
            · intro j c' hj hjc
              rw [← hik', Nat.sub_self] at hj
              omega
            · intro kb bb hbb
              cases hbb
          | some p =>
            obtain ⟨j₀, bb⟩ := p
            rw [selectStep_some_some] at hkept
            by_cases hlt : b₀.length < bb.length
            · rw [if_pos hlt] at hkept
              injection hkept with hkept
              have hik' : i = k := congrArg Prod.fst hkept
              have hbb' : b₀ = b := congrArg Prod.snd hkept
              right
              refine ⟨by omega, ?_, ?_, ?_⟩
              · rw [← hik', Nat.sub_self, List.get?_cons_zero, hbb']
              · intro j c' hj hjc
                rw [← hik', Nat.sub_self] at hj
                omega
              · intro kb bb' hbb
                injection hbb with hbb
                have h3 : bb = bb' := congrArg Prod.snd hbb
                rw [← h3, ← hbb']
                exact hlt
            · rw [if_neg hlt] at hkept
              exact Or.inl hkept
      · right
        have hik0 : i ≤ k := by omega
        have hsub : k - i = (k - (i + 1)) + 1 := by omega
        refine ⟨hik0, ?_, ?_, ?_⟩
        · rw [hsub, List.get?_cons_succ]
          exact hget
        · intro j c' hj hjc
          cases j with
          | zero =>
            rw [List.get?_cons_zero] at hjc
            injection hjc with hjc
            subst hjc
            cases best with
            | none => exact hbeat i c' (by rw [selectStep_some_none])
            | some p =>
              obtain ⟨j₀, bb⟩ := p
              by_cases hlt : c'.length < bb.length
              · exact hbeat i c' (by rw [selectStep_some_some, if_pos hlt])
              · have := hbeat j₀ bb (by rw [selectStep_some_some, if_neg hlt])
                omega
          | succ j =>
            rw [List.get?_cons_succ] at hjc
            rw [hsub] at hj
            exact hstrict j c' (by omega) hjc
        · intro kb bb hbb
          cases c with
          | none =>
            exact hbeat kb bb (by rw [selectStep_none]; exact hbb)
          | some b₀ =>
            cases best with
            | none => cases hbb
            | some p =>
              obtain ⟨j₀, bb₀⟩ := p
              injection hbb with hbb
              have h5 : bb₀ = bb := congrArg Prod.snd hbb
              have h4 : bb₀.length = bb.length := by rw [h5]
              by_cases hlt : b₀.length < bb₀.length
              · have h1 := hbeat i b₀ (by rw [selectStep_some_some, if_pos hlt])
                omega
              · have h1 := hbeat j₀ bb₀ (by rw [selectStep_some_some, if_neg hlt])
                omega
theorem selectGo_all_none (cands : List (Option Bytes)) (h : ∀ c ∈ cands, c = none) :
    ∀ i best, selectGo best i cands = best := by
  induction cands with
  | nil => intro i best; rfl
  | cons c rest ih =>
    intro i best
    have hc : c = none := h c (List.mem_cons_self c rest)
    have hrest : ∀ c ∈ rest, c = none := fun x hx => h x (List.mem_cons_of_mem c hx)
    calc selectGo best i (c :: rest) = selectGo (selectStep best (i, c)) (i + 1) rest := rfl
      _ = selectStep best (i, c) := ih hrest (i + 1) (selectStep best (i, c))
      _ = best := by rw [hc, selectStep_none]

theorem softShrink_zero (x : ℚ) : softShrink x 0 = x := by
  rcases lt_trichotomy x 0 with h | h | h
  · have h1 : ¬ -x - 0 < 0 := by linarith
    simp only [softShrink, absQ, maxQ, if_pos h, if_neg h1]
    ring
  · subst h
    norm_num [softShrink, absQ, maxQ]
  · have h0 : ¬ x < 0 := by linarith
    have h1 : ¬ x = 0 := by linarith
    have h2 : ¬ x - 0 < 0 := by linarith
    simp only [softShrink, absQ, maxQ, if_neg h0, if_neg h1, if_neg h2]
    ring

theorem threshOf_of_median_zero (d : List ℚ) (f : ℚ)
    (h : medianQ (d.map absQ) = 0) : threshOf d f = 0 := by
  rw [threshOf, h, mul_zero, zero_div]

theorem seqWitness_length : seqWitness.length = 512 := by
  rw [seqWitness, List.length_append, List.length_replicate, List.length_replicate]

theorem midOf_seqWitness : midOf seqWitness = 256 := by
  rw [midOf, seqWitness_length]

theorem seqWitness_take : seqWitness.take 256 = List.replicate 256 1 :=
  List.take_left' (by rw [List.length_replicate])

theorem seqWitness_drop : seqWitness.drop 256 = List.replicate 256 (-1) :=
  List.drop_left' (by rw [List.length_replicate])

theorem varQ_replicate_zero (n : Nat) : varQ (List.replicate n (0 : ℚ)) = 0 := by
  simp only [varQ, List.sum_replicate, List.map_replicate, List.length_replicate, smul_zero,
    zero_div, sub_zero]
  norm_num

theorem varQ_seqWitness : varQ seqWitness = 1 := by
  have hsum : seqWitness.sum = 0 := by
    rw [seqWitness, List.sum_append, List.sum_replicate, List.sum_replicate]
    norm_num
  simp only [varQ]
  rw [hsum, seqWitness_length]
  simp only [zero_div, sub_zero]
  have hmap : seqWitness.map (fun x => x ^ 2) = List.replicate 256 1 ++ List.replicate 256 1 := by
    rw [seqWitness, List.map_append, List.map_replicate, List.map_replicate]
    norm_num
  rw [hmap, List.sum_append, List.sum_replicate]
  push_cast
  norm_num

theorem deltaSpec_seqWitness : deltaSpec seqWitness = List.replicate 256 0 := by
  rw [deltaSpec, seqWitness_length]
  have h512 : (512 : Nat) / 2 = 256 := by norm_num
  rw [h512, seqWitness_take, seqWitness_drop]
  rw [List.take_of_length_le (by rw [List.length_replicate]), List.reverse_replicate,
    List.map_replicate, zipWith_replicate_same]
  norm_num

theorem estimateGain_seqWitness : estimateGain seqWitness = 6192 := by
  rw [estimateGain_ifForm, deltaSpec_seqWitness, varQ_replicate_zero, varQ_seqWitness,
    seqWitness_length]
  norm_num

theorem leftPadded_seqWitness : leftPadded seqWitness = List.replicate 256 1 := by
  rw [leftPadded_spec, midOf_seqWitness, seqWitness_length, seqWitness_take]
  rw [show (512 - 256 - 256 : Nat) = 0 from rfl, List.replicate_zero, List.append_nil]

theorem flippedPadded_seqWitness : flippedPadded seqWitness = List.replicate 256 1 := by
  rw [flippedPadded_spec, midOf_seqWitness, seqWitness_drop, List.reverse_replicate,
    List.map_replicate]
  norm_num

theorem deltaStream_seqWitness : deltaStream seqWitness = List.replicate 256 0 := by
  rw [deltaStream, leftPadded_seqWitness, flippedPadded_seqWitness, zipWith_replicate_same]
  norm_num

theorem length_flatten_replicate (n : Nat) (l : Bytes) :
    (List.replicate n l).flatten.length = n * l.length := by
  rw [List.length_flatten, List.map_replicate, List.sum_replicate, smul_eq_mul]

theorem f32bytes_replicate (n : Nat) (q : ℚ) :
    f32bytes (List.replicate n q) = (List.replicate n (encScalar q)).flatten := by
  rw [f32bytes, List.map_replicate]

theorem encScalar_one : encScalar (1 : ℚ) = [49, 47, 49, 59] := rfl

theorem encScalar_zero : encScalar (0 : ℚ) = [48, 47, 49, 59] := rfl

theorem f32_seqW_left_length : (f32bytes (List.replicate 256 (1 : ℚ))).length = 1024 := by
  rw [f32bytes_replicate, length_flatten_replicate, encScalar_one]
  norm_num

theorem f32_seqW_delta_length : (f32bytes (List.replicate 256 (0 : ℚ))).length = 1024 := by
  rw [f32bytes_replicate, length_flatten_replicate, encScalar_zero]
  norm_num

theorem cLeftOf_seqWitness_length : (cLeftOf seqWitness).length = 1029 := by
  rw [cLeftOf, leftPadded_seqWitness, backendCompress, List.length_append, List.length_cons,
    f32_seqW_left_length]
  decide

theorem cDeltaOf_seqWitness_length : (cDeltaOf seqWitness).length = 1029 := by
  rw [cDeltaOf, deltaStream_seqWitness, backendCompress, List.length_append, List.length_cons,
    f32_seqW_delta_length]
  decide

theorem hsize_seqWitness : (compress seqWitness).1.length < 2 ^ 32 := by
  have hneg : ¬ estimateGain seqWitness < 0 := by
    rw [estimateGain_seqWitness]
    norm_num
  rw [compress_sym_eq _ hneg]
  have hhb : hBytesOf seqWitness = headerBytes 256 512 1029 := by
    rw [hBytesOf, midOf_seqWitness, seqWitness_length, cLeftOf_seqWitness_length]
  simp only [hhb, List.length_append, length_le4, cLeftOf_seqWitness_length,
    cDeltaOf_seqWitness_length]
  decide

theorem threshold_apply (d : List ℚ) (f : ℚ) :
    threshold d f = d.map (fun x => softShrink x (threshOf d f)) := rfl

/-! Claim theorems. -/

/-- C1: for every sequence on which the symmetry path is taken (the gain
estimator returns a non-negative gain; the emitted block fits the 4-byte
length prefix), decoding the encoded block returns the sequence exactly in
the exact-rational model, i.e. the delta framing adds no loss beyond the
float32 quantization the model takes as identity: the trailing zero padding
is removed on decode by truncating left to mid and right to origLen - mid
elements; the reported seam is mid. -/
theorem C1_symmetric_roundtrip (data : List ℚ)
    (hgain : 0 ≤ estimateGain data)
    (hsize : (compress data).1.length < 2 ^ 32) :
    decompress (compress data).1 = .ok data ∧
      (compress data).2 = some (data.length / 2) := by
  refine ⟨roundtrip_core data hgain hsize, ?_⟩
  rw [compress_sym_eq data (not_lt.2 hgain)]
  rfl

/-- Witness for C1: the 512-sample sequence whose second half is the
negated reverse of the first takes the symmetry path and round-trips. -/
theorem C1_symmetric_roundtrip_witness :
    0 ≤ estimateGain seqWitness ∧ (compress seqWitness).1.length < 2 ^ 32 ∧
      decompress (compress seqWitness).1 = .ok seqWitness := by
  have h1 : 0 ≤ estimateGain seqWitness := by
    rw [estimateGain_seqWitness]
    norm_num
  exact ⟨h1, hsize_seqWitness, (C1_symmetric_roundtrip seqWitness h1 hsize_seqWitness).1⟩

/-- C2: a sequence shorter than 512 samples, or whose delta variance is not
below the sequence variance, is encoded as a Direct block (backend
compression of the raw float32 bytes, seam none, appliedSymmetric false),
and direct decoding recovers the sequence exactly in the exact-rational
model. -/
theorem C2_direct_roundtrip (data : List ℚ)
    (h : data.length < 512 ∨ varQ (deltaSpec data) ≥ varQ data) :
    compress data = (backendCompress (f32bytes data), none) ∧
      decodeDirect (compress data).1 = some data := by
  have hg : estimateGain data = -1 := estimateGain_sentinel data h
  have hlt : estimateGain data < 0 := by
    rw [hg]
    norm_num
  have hc : compress data = (backendCompress (f32bytes data), none) := by
    rw [compress, if_pos hlt]
  refine ⟨hc, ?_⟩
  rw [hc]
  simp [decodeDirect, backend_roundtrip, frombuffer_f32bytes]

/-- Witness for C2 at the three-sample sequence 1, 2, 3. -/
theorem C2_direct_roundtrip_witness :
    (([1, 2, 3] : List ℚ).length < 512 ∨
      varQ (deltaSpec [1, 2, 3]) ≥ varQ [1, 2, 3]) ∧
      compress [1, 2, 3] = (backendCompress (f32bytes [1, 2, 3]), none) ∧
      decodeDirect (compress [1, 2, 3]).1 = some [1, 2, 3] := by
  have h : (([1, 2, 3] : List ℚ).length < 512) ∨
      varQ (deltaSpec [1, 2, 3]) ≥ varQ [1, 2, 3] :=
    Or.inl (by norm_num)
  exact ⟨h, C2_direct_roundtrip [1, 2, 3] h⟩

/-- C3: the gain estimator returns the sentinel -1 whenever the length is
below 512 or the delta variance is at least the sequence variance, and
otherwise exactly n * 32 * (1 - ratio) * 0.5 - 2000 with
ratio = var(delta) / (var(seq) + 1e-10), where delta is the left half minus
the negated reverse of the matching right slice. -/
theorem C3_gain_formula (data : List ℚ) :
    estimateGain data =
      if data.length < 512 then -1
      else if varQ (deltaSpec data) ≥ varQ data then -1
      else (data.length : ℚ) * 32 *
        (1 - varQ (deltaSpec data) / (varQ data + 1 / 10 ^ 10)) * (1 / 2) - 2000 :=
  estimateGain_ifForm data

/-- C4: every Symmetric block is the concatenation of a 4-byte little-endian
prefix holding the byte length of the serialized header record (fields mid,
orig_len = n, left_c_len = length of the compressed left stream), the header
bytes, exactly left_c_len bytes of compressed leftPadded, and the compressed
delta as the remainder; and the decode slicing stage recovers the header and
the two streams using exactly the length prefix and left_c_len. -/
theorem C4_wire_layout (data : List ℚ)
    (hgain : 0 ≤ estimateGain data)
    (hsize : (compress data).1.length < 2 ^ 32) :
    (compress data).1 =
      le4 (hBytesOf data).length ++ hBytesOf data ++ cLeftOf data ++ cDeltaOf data ∧
    hBytesOf data = headerBytes (midOf data) data.length (cLeftOf data).length ∧
    decodeSlices (compress data).1 =
      some (⟨midOf data, data.length, (cLeftOf data).length⟩, cLeftOf data, cDeltaOf data) := by
  have hneg : ¬ estimateGain data < 0 := not_lt.2 hgain
  have hc := compress_sym_eq data hneg
  have hHlen : (hBytesOf data).length < 2 ^ 32 := hBytes_lt_of_size data hneg hsize
  refine ⟨by rw [hc], rfl, ?_⟩
  rw [hc]
  exact decodeSlices_frame (midOf data) data.length (cLeftOf data) (cDeltaOf data) hHlen

/-- Witness for C4 at the 512-sample symmetric sequence. -/
theorem C4_wire_layout_witness :
    0 ≤ estimateGain seqWitness ∧ (compress seqWitness).1.length < 2 ^ 32 ∧
      decodeSlices (compress seqWitness).1 =
        some (⟨midOf seqWitness, seqWitness.length, (cLeftOf seqWitness).length⟩,
          cLeftOf seqWitness, cDeltaOf seqWitness) := by
  have h1 : 0 ≤ estimateGain seqWitness := by
    rw [estimateGain_seqWitness]
    norm_num
  exact ⟨h1, hsize_seqWitness, (C4_wire_layout seqWitness h1 hsize_seqWitness).2.2⟩

/-- C5 (code bug evidence): the artifact serializer runs the detail buffer
bytes through the json.dumps default fallback str(o), so deserialization
returns the latin-1 encoding of the Python repr text instead of the
original buffer: for the one-byte buffer 0x00 the recovered bytes are
b, quote, backslash, x, 0, 0, quote - not byte-identical to the input. -/
theorem C5_detail_corruption :
    deserializeDetail (serializeDetail [0]) = some [98, 39, 92, 120, 48, 48, 39] ∧
      ([98, 39, 92, 120, 48, 48, 39] : Bytes) ≠ [0] := by
  constructor
  · decide
  · decide

/-- C6 counterexample: thresholding twice with the same factor is not the
same as thresholding once, because the second pass re-estimates the noise
scale from the already-shrunk array: at d = [1], f = 1/2, one pass gives
[349/1349] and a second pass shrinks again to [121801/1819801]. -/
theorem C6_counterexample :
    threshold (threshold [1] (1 / 2)) (1 / 2) ≠ threshold [1] (1 / 2) := by
  have h1 : threshold [1] (1 / 2) = [349 / 1349] := by
    norm_num [threshold, threshOf, medianQ, softShrink, absQ, maxQ, List.insertionSort,
      List.orderedInsert]
  have h2 : threshold [(349 / 1349 : ℚ)] (1 / 2) = [121801 / 1819801] := by
    norm_num [threshold, threshOf, medianQ, softShrink, absQ, maxQ, List.insertionSort,
      List.orderedInsert]
  rw [h1, h2]
  simp only [ne_eq, List.cons.injEq, and_true]
  norm_num

/-- C6 amended: threshold is not idempotent in general (the counterexample
shows a second pass shrinking again); applying threshold twice with the
same factor equals applying it once whenever the median absolute value of
the once-thresholded array is zero, for then the re-estimated threshold is
zero and soft shrink at threshold zero is the identity. -/
theorem C6_amended (d : List ℚ) (f : ℚ)
    (hmed : medianQ ((threshold d f).map absQ) = 0) :
    threshold (threshold d f) f = threshold d f := by
  have ht : threshOf (threshold d f) f = 0 := threshOf_of_median_zero _ _ hmed
  rw [threshold_apply (threshold d f) f, ht]
  simp [softShrink_zero]

/-- Witness for C6 amended: at d = [1], f = 1, one pass shrinks everything
to zero, the re-estimated median is zero, and a second pass is a no-op. -/
theorem C6_amended_witness :
    medianQ ((threshold [1] 1).map absQ) = 0 ∧
      threshold (threshold [1] 1) 1 = threshold [1] 1 := by
  have h0 : threshold [1] 1 = [0] := by
    norm_num [threshold, threshOf, medianQ, softShrink, absQ, maxQ, List.insertionSort,
      List.orderedInsert]
  have hmed : medianQ ((threshold [1] 1).map absQ) = 0 := by
    rw [h0]
    norm_num [medianQ, absQ, List.insertionSort, List.orderedInsert]
  exact ⟨hmed, C6_amended [1] 1 hmed⟩

/-- C7: when the family selection loop returns a winner, the winner is a
non-failing candidate whose packed byte size is minimal among all
non-failing candidates, and is strictly smaller than every non-failing
candidate listed earlier, so ties keep the earliest candidate. -/
theorem C7_select_min (cands : List (Option Bytes)) (i : Nat) (b : Bytes)
    (h : selectBest cands = some (i, b)) :
    cands.get? i = some (some b) ∧
      (∀ j c, cands.get? j = some (some c) → b.length ≤ c.length) ∧
      (∀ j c, j < i → cands.get? j = some (some c) → b.length < c.length) := by
  obtain ⟨hmin, hside⟩ := (selectGo_spec cands 0 none).2 i b h
  rcases hside with hkept | ⟨_, hget, hstrict, _⟩
  · cases hkept
  · rw [Nat.sub_zero] at hget hstrict
    exact ⟨hget, hmin, hstrict⟩

/-- Witness for C7: with a failing candidate and two sizes, the smaller,
later candidate wins. -/
theorem C7_select_min_witness :
    selectBest [none, some [1, 2], some [3]] = some (2, [3]) ∧
      ([none, some [1, 2], some [3]] : List (Option Bytes)).get? 2 = some (some [3]) := by
  have h : selectBest [none, some [1, 2], some [3]] = some (2, [3]) := by decide
  exact ⟨h, (C7_select_min [none, some [1, 2], some [3]] 2 [3] h).1⟩

/-- C8: a failing candidate is skipped and selection still succeeds from
the remaining candidates (the winner is a real, non-failing entry); only
when every candidate fails does the selection fail with the fatal
no-viable-basis error; there is no silent fallback result. -/
theorem C8_fail_handling (cands : List (Option Bytes)) :
    ((∀ c ∈ cands, c = none) → selectOrFail cands = .error SelectError.noViableBasis) ∧
      (∀ c ∈ cands, c ≠ none → ∃ i b, selectOrFail cands = .ok (i, b) ∧
        cands.get? i = some (some b)) := by
  constructor
  · intro h
    have hnone : selectBest cands = none := by
      rw [selectBest, selectGo_all_none cands h]
    simp only [selectOrFail, hnone]
  · intro c hc hcne
    have hne : selectBest cands ≠ none := by
      intro hnone
      obtain ⟨_, hall⟩ := (selectGo_spec cands 0 none).1 hnone
      exact hcne (hall c hc)
    cases hsb : selectBest cands with
    | none => exact absurd hsb hne
    | some p =>
      obtain ⟨i, b⟩ := p
      obtain ⟨_, hside⟩ := (selectGo_spec cands 0 none).2 i b hsb
      rcases hside with hkept | ⟨_, hget, _, _⟩
      · cases hkept
      · rw [Nat.sub_zero] at hget
        exact ⟨i, b, by simp only [selectOrFail, hsb], hget⟩

/-- Witness for C8: all candidates failing is fatal, while one success
beside a failure yields that success. -/
theorem C8_fail_handling_witness :
    selectOrFail [none, none] = .error SelectError.noViableBasis ∧
      ∃ i b, selectOrFail [none, some [7]] = .ok (i, b) ∧
        ([none, some [7]] : List (Option Bytes)).get? i = some (some b) := by
  constructor
  · exact (C8_fail_handling [none, none]).1 (by decide)
  · exact (C8_fail_handling [none, some [7]]).2 (some [7]) (by decide) (by decide)

/-- C9 counterexample: a block whose parsed header declares left_c_len 100
while no bytes remain after the header - the declared length is
inconsistent with the remaining buffer - makes decode fail with the
backend error, not the format error the claim asserts for that case. -/
theorem C9_counterexample :
    decompress (le4 (headerBytes 1 2 100).length ++ headerBytes 1 2 100) =
      .error RP2Error.backendError ∧
      RP2Error.backendError ≠ RP2Error.formatError := by
  constructor
  · rfl
  · decide

/-- C9 amended: decode fails with FormatError exactly when the header
cannot be parsed out of the buffer (for instance the 4-byte length prefix
exceeding the buffer truncates the header), while a declared left_c_len
inconsistent with the remaining buffer is not detected at the header stage
and surfaces, like any backend decompression failure of either stream, as
BackendError; in each case decode returns the error and never a
substituted default sequence. -/
theorem C9_amended (compressed : Bytes) :
    (decodeSlices compressed = none →
      decompress compressed = .error RP2Error.formatError) ∧
    (∀ hdr cL cD, decodeSlices compressed = some (hdr, cL, cD) →
      backendDecompress cL = none ∨ backendDecompress cD = none →
      decompress compressed = .error RP2Error.backendError) := by
  constructor
  · intro h
    simp only [decompress, h]
  · intro hdr cL cD h hbd
    simp only [decompress, h]
    rcases hbd with h1 | h1
    · rw [h1]
    · rw [h1]
      cases backendDecompress cL <;> rfl

/-- Witness for C9 amended: the empty buffer has no parseable header and
decodes to FormatError; the inconsistent-left_c_len block decodes to
BackendError. -/
theorem C9_amended_witness :
    decompress [] = .error RP2Error.formatError ∧
      decompress (le4 (headerBytes 1 2 100).length ++ headerBytes 1 2 100) =
        .error RP2Error.backendError := by
  constructor
  · exact (C9_amended []).1 (by rfl)
  · exact (C9_amended _).2 ⟨1, 2, 100⟩ [] [] (by rfl) (Or.inl (by rfl))

/-- C10: the two comparison slices of the gain estimator always have equal
length, since with mid = n / 2 rounded down the right remainder n - mid is
at least mid, so the unequal-length sentinel branch is unreachable:
removing it never changes the estimate, leaving the short-input test and
the variance comparison as the only sentinel causes. -/
theorem C10_length_check_unreachable (data : List ℚ) :
    (data.take (data.length / 2)).length =
      ((((data.drop (data.length / 2)).take
        ((data.take (data.length / 2)).length)).reverse).map (fun x => -x)).length ∧
      estimateGain data = estimateGainNoCheck data :=
  ⟨comparison_slice_lengths data, estimateGain_eq_noCheck data⟩

end HybridZoo
